import Mathlib

/-!
Shallow embedding of the `ordered_set` package (`src/ordered_set/__init__.py`,
class `OrderedSet`) and proofs about its specification.

An `OrderedSet` holds two fields, mirroring the Python slots:
 - `items : List α` for `self.items` (the ordered sequence), and
 - `map : List (α × Nat)` for `self.map`, a Python `dict` modelled as an
   association list in insertion order with unique keys (Python dicts preserve
   insertion order; value assignment to an existing key keeps its position).

Python iterables passed to `update` are modelled as `Option (List α)`:
`some l` is an iterable yielding the elements of `l` in order, `none` is a
non-iterable argument (iterating it raises `TypeError`).  Fallible operations
return `Except String` values; the error strings are the Python exception
messages (without the interpolated type name).
-/

namespace OrderedSetSpec

variable {α : Type} [DecidableEq α]

/-- Python `dict` lookup `m.get(k)` / `m[k]` on the association-list model:
the value of the first (and, for a genuine dict, only) entry whose key is `k`. -/
def dictGet (m : List (α × Nat)) (k : α) : Option Nat :=
  (m.find? (fun kv => decide (kv.1 = k))).map (fun kv => kv.2)

/-- Python `k in m` for a dict `m`. -/
def dictContains (m : List (α × Nat)) (k : α) : Bool :=
  m.any (fun kv => decide (kv.1 = k))

/-- Python `m[k] = v`: update the value in place if `k` is already a key
(keeping its position in insertion order), otherwise append a new entry. -/
def dictInsert (m : List (α × Nat)) (k : α) (v : Nat) : List (α × Nat) :=
  if dictContains m k then
    m.map (fun kv => if kv.1 = k then (kv.1, v) else kv)
  else
    m ++ [(k, v)]

/-- Python `del m[k]` (only called by the source when `k` is present). -/
def dictErase (m : List (α × Nat)) (k : α) : List (α × Nat) :=
  m.filter (fun kv => !(decide (kv.1 = k)))

/-- The keys of a dict, in insertion order. -/
def keys (m : List (α × Nat)) : List α :=
  m.map Prod.fst

/-- Python `enumerate(l)` starting from `n`. -/
def enumerate (n : Nat) : List α → List (Nat × α)
  | [] => []
  | x :: xs => (n, x) :: enumerate (n + 1) xs

/-- The dict comprehension `{item: i for i, item in enumerate(items)}` used by
`pop`, `__setitem__`, `__delitem__` and `_update_items` to rebuild `self.map`. -/
def rebuild (l : List α) : List (α × Nat) :=
  (enumerate 0 l).foldl (fun m p => dictInsert m p.2 p.1) []

/-- The index of the first occurrence of `x` in a list (a specification-side
helper used to state theorems; it is not part of the Python source). -/
def posOf (x : α) : List α → Option Nat
  | [] => none
  | y :: l => if y = x then some 0 else (posOf x l).map (fun n => n + 1)

/-- The negative-index conversion shared by `__setitem__` and `__delitem__`:
`if index < 0: index += len(self.items)`.  Only used on bounds-checked
indices, for which the result is the obvious non-negative position. -/
def normIdx (n : Nat) (index : Int) : Nat :=
  (if index < 0 then index + (n : Int) else index).toNat

/-- The state of a Python `OrderedSet`: `__slots__ = ("items", "map")`. -/
structure OrderedSet (α : Type) where
  items : List α
  map : List (α × Nat)
deriving DecidableEq

/-- `OrderedSet.add`: append `value` if it is not yet a key of `self.map`
(recording its index `len(self.items)` before the append), then return
`self.map[value]`.  The final lookup always succeeds, so `getD 0` never
falls back to its default. -/
def add (s : OrderedSet α) (value : α) : OrderedSet α × Nat :=
  let s' : OrderedSet α :=
    if dictContains s.map value then s
    else { items := s.items ++ [value],
           map := dictInsert s.map value s.items.length }
  (s', (dictGet s'.map value).getD 0)

/-- The inner loop of `OrderedSet.update`:
`for item in sequence: item_index = self.add(item)`. -/
def addAll (s : OrderedSet α) (idx : Nat) : List α → OrderedSet α × Nat
  | [] => (s, idx)
  | x :: xs =>
    let p := add s x
    addAll p.1 p.2 xs

/-- The loop of `OrderedSet.update` over the `*sequences` arguments.  A
non-iterable source (`none`) raises
`ValueError("Argument needs to be an iterable, got ...")`; the elements
consumed before the error remain added (Python propagates the exception but
keeps the mutations already performed on `self`). -/
def updateGo (s : OrderedSet α) (idx : Nat) :
    List (Option (List α)) → OrderedSet α × Except String Nat
  | [] => (s, Except.ok idx)
  | none :: _ => (s, Except.error "Argument needs to be an iterable")
  | some seq :: rest =>
    let p := addAll s idx seq
    updateGo p.1 p.2 rest

/-- `OrderedSet.update(*sequences)`: `item_index = 0`, then add every element
of every source left to right, returning the last index returned by `add`
(or 0 if no `add` was performed). -/
def update (s : OrderedSet α) (sequences : List (Option (List α))) :
    OrderedSet α × Except String Nat :=
  updateGo s 0 sequences

/-- `OrderedSet.__init__(initial)` for an iterable `initial`, i.e.
`cls(iterable)`: start from empty `items`/`map` and `update` with the
iterable.  Iterating an `OrderedSet` yields `self.items`, so construction
from another `OrderedSet` `t` is `fromList t.items`. -/
def fromList (l : List α) : OrderedSet α :=
  (update { items := [], map := [] } [some l]).1

/-- `OrderedSet.copy`: `self.__class__(self)`. -/
def copy (s : OrderedSet α) : OrderedSet α :=
  fromList s.items

/-- The value returned by `OrderedSet.__getstate__`: either the tuple
`(None,)` (for an empty set) or the list `list(self)`. -/
inductive PickleState (α : Type) where
  | sentinel : PickleState α
  | data : List α → PickleState α
deriving DecidableEq

/-- Python truthiness of a `__getstate__` result: the tuple `(None,)` is a
non-empty tuple, hence truthy; a list is truthy iff non-empty.  Pickle only
calls `__setstate__` when the state is truthy. -/
def stateTruthy : PickleState α → Bool
  | PickleState.sentinel => true
  | PickleState.data l => !l.isEmpty

/-- `OrderedSet.__getstate__`: `(None,)` if `len(self) == 0`, else `list(self)`. -/
def getstate (s : OrderedSet α) : PickleState α :=
  if s.items.length = 0 then PickleState.sentinel else PickleState.data s.items

/-- `OrderedSet.__setstate__`: `__init__([])` on the sentinel `(None,)`,
otherwise `__init__(state)`. -/
def setstate (st : PickleState α) : OrderedSet α :=
  match st with
  | PickleState.sentinel => fromList []
  | PickleState.data l => fromList l

/-- `OrderedSet.__setitem__(index, value)`.  Bounds-checks
`-len(self.items) <= index < len(self.items)`, converts a negative index,
removes `value` from its old position when it is already present elsewhere
(returning unchanged when old and new positions coincide), writes `value`
at the (possibly shifted) target index, and rebuilds `self.map`.  The Python
source also reads `old_value = self.items[index]`, a dead store that is never
used, which we omit.  The `getD 0` stands for `self.map[value]`, which
succeeds because it is only evaluated under the `value in self.map` test. -/
def setitem (s : OrderedSet α) (index : Int) (value : α) :
    Except String (OrderedSet α) :=
  if ¬(-(s.items.length : Int) ≤ index ∧ index < (s.items.length : Int)) then
    Except.error "list index out of range"
  else
    let idx : Nat := normIdx s.items.length index
    if dictContains s.map value then
      let oldIndex := (dictGet s.map value).getD 0
      if oldIndex = idx then
        Except.ok s
      else
        let items1 := s.items.eraseIdx oldIndex
        let idx2 := if oldIndex < idx then idx - 1 else idx
        let items2 := items1.set idx2 value
        Except.ok { items := items2, map := rebuild items2 }
    else
      let items2 := s.items.set idx value
      Except.ok { items := items2, map := rebuild items2 }

/-- `OrderedSet.__delitem__(index)`: bounds check, negative-index conversion,
`del self.items[index]`, full rebuild of `self.map`. -/
def delitem (s : OrderedSet α) (index : Int) : Except String (OrderedSet α) :=
  if ¬(-(s.items.length : Int) ≤ index ∧ index < (s.items.length : Int)) then
    Except.error "list index out of range"
  else
    let idx : Nat := normIdx s.items.length index
    let items2 := s.items.eraseIdx idx
    Except.ok { items := items2, map := rebuild items2 }

/-- `OrderedSet.discard(value)`: if `value in self` (a `self.map` key test),
delete it from `items` and `map` and decrement the stored index of every
entry whose index is `>= i`.  After the deletion every remaining index is
distinct from `i`, and in every invariant-respecting state the decremented
indices are positive, so natural subtraction coincides with Python's `v - 1`.
`getD 0` stands for `self.map[value]`, guarded by the containment test, and
`List.eraseIdx` stands for `del self.items[i]` with `i` in range. -/
def discard (s : OrderedSet α) (value : α) : OrderedSet α :=
  if dictContains s.map value then
    let i := (dictGet s.map value).getD 0
    let items2 := s.items.eraseIdx i
    let map1 := dictErase s.map value
    let map2 := map1.map (fun kv => if i ≤ kv.2 then (kv.1, kv.2 - 1) else kv)
    { items := items2, map := map2 }
  else s

/-- `OrderedSet.union(*sets)`: `cls(itertools.chain(self, *sets))`. -/
def union (s : OrderedSet α) (sets : List (List α)) : OrderedSet α :=
  fromList (s.items ++ sets.flatten)

/-- `OrderedSet.intersection(*sets)`: when `sets` is non-empty, keep the
elements of `self` lying in the intersection of all the given sets, in
`self`'s order; `cls(items)` rebuilds the result. -/
def intersection (s : OrderedSet α) (sets : List (List α)) : OrderedSet α :=
  if sets.isEmpty then fromList s.items
  else fromList (s.items.filter (fun x => sets.all (fun t => t.any (fun y => decide (y = x)))))

/-- `OrderedSet.__and__(other)`: `self.intersection(other)`. -/
def opAnd (s : OrderedSet α) (other : List α) : OrderedSet α :=
  intersection s [other]

/-- `OrderedSet.difference(*sets)`: when `sets` is non-empty, keep the
elements of `self` not in the union of the given sets. -/
def difference (s : OrderedSet α) (sets : List (List α)) : OrderedSet α :=
  if sets.isEmpty then fromList s.items
  else fromList (s.items.filter (fun x => !(sets.any (fun t => t.any (fun y => decide (y = x))))))

/-- `OrderedSet.symmetric_difference(other)`:
`cls(self).difference(other)` unioned with `cls(other).difference(self)`. -/
def symmetric_difference (s : OrderedSet α) (other : List α) : OrderedSet α :=
  let diff1 := difference (fromList s.items) [other]
  let diff2 := difference (fromList other) [s.items]
  union diff1 [diff2.items]

/-- `OrderedSet._update_items(items)`: replace `self.items` and rebuild
`self.map` with the dict comprehension `{item: idx for (idx, item) in enumerate(items)}`. -/
def update_items (s : OrderedSet α) (l : List α) : OrderedSet α :=
  { items := l, map := rebuild l }

/-- `OrderedSet.difference_update(*sets)`: drop the items lying in the union
of the given sets, via `_update_items`.  The receiver argument only supplies
the state being replaced. -/
def difference_update (s : OrderedSet α) (sets : List (List α)) : OrderedSet α :=
  update_items s
    (s.items.filter (fun x => !(sets.any (fun t => t.any (fun y => decide (y = x))))))

/-- `OrderedSet.intersection_update(other)`: keep the items lying in
`set(other)`, via `_update_items`. -/
def intersection_update (s : OrderedSet α) (other : List α) : OrderedSet α :=
  update_items s (s.items.filter (fun x => other.any (fun y => decide (y = x))))

/-- `OrderedSet.symmetric_difference_update(other)`:
`items_to_add = [item for item in other if item not in self]` (a `self.map`
membership test), `items_to_remove = set(other)`, then `_update_items` on the
filtered items followed by `items_to_add`. -/
def symmetric_difference_update (s : OrderedSet α) (other : List α) : OrderedSet α :=
  let items_to_add := other.filter (fun x => !(dictContains s.map x))
  update_items s
    (s.items.filter (fun x => !(other.any (fun y => decide (y = x)))) ++ items_to_add)

/-- First-occurrence deduplication of `l` relative to a list `seen` of already
present elements: the sequence of elements of `l`, in order, that are new at
the point they are reached.  Specification-side helper describing what a fold
of `add` appends. -/
def dedupFrom (seen : List α) : List α → List α
  | [] => []
  | x :: xs => if x ∈ seen then dedupFrom seen xs else x :: dedupFrom (seen ++ [x]) xs

/-- The core invariant of an `OrderedSet` state: the sequence has no
duplicates, the dict has no duplicate keys, sequence and dict have the same
size, and the dict sends every element of the sequence to its position. -/
def Inv (s : OrderedSet α) : Prop :=
  s.items.Nodup ∧ (keys s.map).Nodup ∧ s.map.length = s.items.length ∧
    ∀ x ∈ s.items, dictGet s.map x = posOf x s.items

instance (s : OrderedSet α) : Decidable (Inv s) := by
  unfold Inv
  infer_instance

/-! ### Lemmas about `posOf` -/

theorem posOf_eq_none {x : α} {l : List α} : posOf x l = none ↔ x ∉ l := by
  induction l with
  | nil => simp [posOf]
  | cons y l ih =>
    by_cases h : y = x
    · simp [posOf, h]
    · simp [posOf, h, Option.map_eq_none', ih, Ne.symm h]

theorem posOf_isSome {x : α} {l : List α} : (posOf x l).isSome = true ↔ x ∈ l := by
  rw [Option.isSome_iff_ne_none, ne_eq, posOf_eq_none, not_not]

theorem posOf_get {x : α} {l : List α} {i : Nat} (h : posOf x l = some i) :
    l[i]? = some x := by
  induction l generalizing i with
  | nil => simp [posOf] at h
  | cons y l ih =>
    by_cases hy : y = x
    · simp [posOf, hy] at h
      simp [← h, hy]
    · simp [posOf, hy] at h
      obtain ⟨j, hj, rfl⟩ := h
      simpa using ih hj

theorem posOf_lt_length {x : α} {l : List α} {i : Nat} (h : posOf x l = some i) :
    i < l.length := by
  have := posOf_get h
  exact (List.getElem?_eq_some.mp this).1

theorem posOf_of_get {x : α} {l : List α} {i : Nat} (hnd : l.Nodup)
    (h : l[i]? = some x) : posOf x l = some i := by
  induction l generalizing i with
  | nil => simp at h
  | cons y l ih =>
    rcases List.nodup_cons.mp hnd with ⟨hy, hnd'⟩
    cases i with
    | zero =>
      simp at h
      simp [posOf, h]
    | succ j =>
      simp at h
      have hx : x ∈ l := List.getElem?_mem h
      have hyx : ¬ y = x := fun e => hy (e ▸ hx)
      simp [posOf, hyx, ih hnd' h]

theorem posOf_append_left {x : α} {l₁ l₂ : List α} (h : x ∈ l₁) :
    posOf x (l₁ ++ l₂) = posOf x l₁ := by
  induction l₁ with
  | nil => simp at h
  | cons y l ih =>
    by_cases hy : y = x
    · simp [posOf, hy]
    · rcases List.mem_cons.mp h with h' | h'
      · exact absurd h'.symm hy
      · simp [posOf, hy, ih h']

theorem posOf_append_right {x : α} {l₁ l₂ : List α} (h : x ∉ l₁) :
    posOf x (l₁ ++ l₂) = (posOf x l₂).map (fun n => n + l₁.length) := by
  induction l₁ with
  | nil => simp
  | cons y l ih =>
    have hy : ¬ y = x := fun e => h (e ▸ List.mem_cons_self y l)
    have h' : x ∉ l := fun hx => h (List.mem_cons_of_mem _ hx)
    simp only [List.cons_append, posOf, hy, if_false, List.length_cons, List.append_eq]
    rw [ih h']
    cases posOf x l₂ <;> simp [Nat.add_assoc, Nat.add_comm 1]

/-! ### Lemmas about the dict model -/

theorem dictGet_cons_of_eq {k x : α} {v : Nat} {m : List (α × Nat)}
    (h : k = x) : dictGet ((k, v) :: m) x = some v := by
  simp [dictGet, List.find?_cons, h]

theorem dictGet_cons_of_ne {k x : α} {v : Nat} {m : List (α × Nat)}
    (h : ¬ k = x) : dictGet ((k, v) :: m) x = dictGet m x := by
  simp [dictGet, List.find?_cons, h]

theorem dictContains_iff {m : List (α × Nat)} {x : α} :
    dictContains m x = true ↔ x ∈ keys m := by
  induction m with
  | nil => simp [dictContains, keys]
  | cons kv m ih =>
    obtain ⟨k, v⟩ := kv
    by_cases h : k = x
    · simp [dictContains, keys, List.any_cons, h]
    · have hstep : dictContains ((k, v) :: m) x = dictContains m x := by
        simp [dictContains, List.any_cons, h]
      rw [hstep, ih]
      simp [keys, List.mem_cons, Ne.symm h]

theorem dictContains_eq_false {m : List (α × Nat)} {x : α} :
    dictContains m x = false ↔ x ∉ keys m := by
  rw [← dictContains_iff]
  cases dictContains m x <;> simp

theorem dictGet_eq_none {m : List (α × Nat)} {x : α} :
    dictGet m x = none ↔ x ∉ keys m := by
  induction m with
  | nil => simp [dictGet, keys]
  | cons kv m ih =>
    obtain ⟨k, v⟩ := kv
    by_cases h : k = x
    · rw [dictGet_cons_of_eq h]
      simp [keys, h]
    · rw [dictGet_cons_of_ne h]
      simp only [keys, List.map_cons, List.mem_cons, not_or]
      simp [keys] at ih
      simp [ih, Ne.symm h]

theorem dictGet_mem_keys {m : List (α × Nat)} {x : α} {i : Nat}
    (h : dictGet m x = some i) : x ∈ keys m := by
  by_contra hx
  rw [← dictGet_eq_none] at hx
  simp [hx] at h

theorem dictGet_append_of_ne {m : List (α × Nat)} {x v : α} {n : Nat}
    (h : x ≠ v) : dictGet (m ++ [(v, n)]) x = dictGet m x := by
  induction m with
  | nil =>
    simp only [List.nil_append]
    rw [dictGet_cons_of_ne (Ne.symm h)]
  | cons kv m ih =>
    obtain ⟨k, w⟩ := kv
    by_cases hk : k = x
    · rw [List.cons_append, dictGet_cons_of_eq hk, dictGet_cons_of_eq hk]
    · rw [List.cons_append, dictGet_cons_of_ne hk, dictGet_cons_of_ne hk]
      exact ih

theorem dictGet_append_self {m : List (α × Nat)} {v : α} {n : Nat}
    (h : v ∉ keys m) : dictGet (m ++ [(v, n)]) v = some n := by
  induction m with
  | nil =>
    simp only [List.nil_append]
    rw [dictGet_cons_of_eq rfl]
  | cons kv m ih =>
    obtain ⟨k, w⟩ := kv
    have h1 : ¬ k = v := by
      intro e
      subst e
      exact h (by simp [keys])
    have h2 : v ∉ keys m := fun hm =>
      h (by simp only [keys, List.map_cons]; exact List.mem_cons_of_mem _ hm)
    rw [List.cons_append, dictGet_cons_of_ne h1]
    exact ih h2

/-! ### Lemmas about `enumerate` and `rebuild` -/

theorem enumerate_map_snd (n : Nat) (l : List α) :
    (enumerate n l).map Prod.snd = l := by
  induction l generalizing n with
  | nil => rfl
  | cons x xs ih => simp [enumerate, ih]

theorem enumerate_length (n : Nat) (l : List α) :
    (enumerate n l).length = l.length := by
  induction l generalizing n with
  | nil => rfl
  | cons x xs ih => simp [enumerate, ih]

theorem foldl_dictInsert_fresh (ps : List (Nat × α)) (m : List (α × Nat))
    (hfresh : ∀ p ∈ ps, p.2 ∉ keys m) (hnd : (ps.map Prod.snd).Nodup) :
    ps.foldl (fun m p => dictInsert m p.2 p.1) m
      = m ++ ps.map (fun p => (p.2, p.1)) := by
  induction ps generalizing m with
  | nil => simp
  | cons p rest ih =>
    have hc : dictContains m p.2 = false :=
      dictContains_eq_false.mpr (hfresh p (List.mem_cons_self _ _))
    have step : dictInsert m p.2 p.1 = m ++ [(p.2, p.1)] := by
      simp [dictInsert, hc]
    rw [List.map_cons] at hnd
    rcases List.nodup_cons.mp hnd with ⟨hp, hnd'⟩
    have hfresh' : ∀ q ∈ rest, q.2 ∉ keys (m ++ [(p.2, p.1)]) := by
      intro q hq
      simp only [keys, List.map_append, List.mem_append] at *
      rintro (h | h)
      · exact hfresh q (List.mem_cons_of_mem _ hq) h
      · simp at h
        refine hp ?_
        rw [← h]
        exact List.mem_map_of_mem Prod.snd hq
    calc (p :: rest).foldl (fun m p => dictInsert m p.2 p.1) m
        = rest.foldl (fun m p => dictInsert m p.2 p.1) (m ++ [(p.2, p.1)]) := by
          simp [List.foldl_cons, step]
      _ = m ++ [(p.2, p.1)] ++ rest.map (fun p => (p.2, p.1)) := ih _ hfresh' hnd'
      _ = m ++ (p :: rest).map (fun p => (p.2, p.1)) := by simp

theorem rebuild_eq_of_nodup {l : List α} (hnd : l.Nodup) :
    rebuild l = (enumerate 0 l).map (fun p => (p.2, p.1)) := by
  unfold rebuild
  rw [foldl_dictInsert_fresh]
  · simp
  · simp [keys]
  · rw [enumerate_map_snd]
    exact hnd

theorem dictGet_enumerate_swap (l : List α) (n : Nat) (x : α) :
    dictGet ((enumerate n l).map (fun p => (p.2, p.1))) x
      = (posOf x l).map (fun i => i + n) := by
  induction l generalizing n with
  | nil => simp [enumerate, dictGet, posOf]
  | cons y xs ih =>
    by_cases hy : y = x
    · simp only [enumerate, List.map_cons]
      rw [dictGet_cons_of_eq hy]
      simp [posOf, hy]
    · simp only [enumerate, List.map_cons, posOf, hy, if_false]
      rw [dictGet_cons_of_ne hy, ih (n + 1)]
      cases posOf x xs <;> simp [Nat.add_assoc, Nat.add_comm 1]

theorem dictGet_rebuild {l : List α} (hnd : l.Nodup) (x : α) :
    dictGet (rebuild l) x = posOf x l := by
  rw [rebuild_eq_of_nodup hnd, dictGet_enumerate_swap]
  cases posOf x l <;> simp

theorem keys_rebuild {l : List α} (hnd : l.Nodup) : keys (rebuild l) = l := by
  rw [rebuild_eq_of_nodup hnd]
  simp only [keys, List.map_map]
  have : (Prod.fst ∘ fun p : Nat × α => (p.2, p.1)) = Prod.snd := rfl
  rw [this, enumerate_map_snd]

theorem rebuild_length {l : List α} (hnd : l.Nodup) :
    (rebuild l).length = l.length := by
  rw [rebuild_eq_of_nodup hnd]
  simp [enumerate_length]

theorem Inv_update_items {l : List α} (hnd : l.Nodup) (s : OrderedSet α) :
    Inv (update_items s l) := by
  refine ⟨hnd, ?_, ?_, ?_⟩
  · rw [update_items, keys_rebuild hnd]
    exact hnd
  · exact rebuild_length hnd
  · intro x _
    exact dictGet_rebuild hnd x

/-! ### Consequences of the invariant -/

theorem Inv.mem_keys {s : OrderedSet α} (hs : Inv s) (x : α) :
    x ∈ keys s.map ↔ x ∈ s.items := by
  obtain ⟨hitems, hkeys, hlen, hget⟩ := hs
  constructor
  · intro hx
    have hsub : s.items.toFinset ⊆ (keys s.map).toFinset := by
      intro y hy
      rw [List.mem_toFinset] at hy ⊢
      rcases Option.isSome_iff_exists.mp (posOf_isSome.mpr hy) with ⟨i, hi⟩
      exact dictGet_mem_keys ((hget y hy).trans hi)
    have hcard : (keys s.map).toFinset.card ≤ s.items.toFinset.card := by
      rw [List.toFinset_card_of_nodup hkeys, List.toFinset_card_of_nodup hitems]
      rw [keys, List.length_map]
      exact Nat.le_of_eq hlen
    have := Finset.eq_of_subset_of_card_le hsub hcard
    rw [← List.mem_toFinset, ← this, List.mem_toFinset] at hx
    exact hx
  · intro hx
    rcases Option.isSome_iff_exists.mp (posOf_isSome.mpr hx) with ⟨i, hi⟩
    exact dictGet_mem_keys ((hget x hx).trans hi)

theorem Inv.dictGet_eq {s : OrderedSet α} (hs : Inv s) (x : α) :
    dictGet s.map x = posOf x s.items := by
  by_cases hx : x ∈ s.items
  · exact hs.2.2.2 x hx
  · rw [dictGet_eq_none.mpr (fun hk => hx ((hs.mem_keys x).mp hk)),
      (posOf_eq_none.mpr hx).symm]

theorem Inv.contains_eq {s : OrderedSet α} (hs : Inv s) (x : α) :
    dictContains s.map x = decide (x ∈ s.items) := by
  by_cases hx : x ∈ s.items
  · simp [dictContains_iff, (hs.mem_keys x).mpr hx, hx]
  · rw [decide_eq_false hx]
    exact dictContains_eq_false.mpr (fun hk => hx ((hs.mem_keys x).mp hk))

/-! ### Lemmas about `add` -/

theorem add_of_mem {s : OrderedSet α} (hs : Inv s) {x : α} {i : Nat}
    (h : posOf x s.items = some i) : add s x = (s, i) := by
  have hmem : x ∈ s.items := by
    have := posOf_isSome (x := x) (l := s.items)
    rw [h] at this
    exact this.mp rfl
  have hc : dictContains s.map x = true := by
    rw [hs.contains_eq]
    simpa using hmem
  simp [add, hc, hs.dictGet_eq, h]

theorem add_of_not_mem {s : OrderedSet α} (hs : Inv s) {x : α}
    (h : x ∉ s.items) :
    add s x = ({ items := s.items ++ [x], map := s.map ++ [(x, s.items.length)] },
      s.items.length) := by
  have hc : dictContains s.map x = false := by
    rw [hs.contains_eq]
    simpa using h
  have hins : dictInsert s.map x s.items.length = s.map ++ [(x, s.items.length)] := by
    simp [dictInsert, hc]
  have hkeys : x ∉ keys s.map := fun hk => h ((hs.mem_keys x).mp hk)
  simp only [add, hc, Bool.false_eq_true, if_false, hins]
  rw [dictGet_append_self hkeys]
  rfl

theorem Inv_add {s : OrderedSet α} (hs : Inv s) (x : α) : Inv ((add s x).1) := by
  by_cases hmem : x ∈ s.items
  · rcases Option.isSome_iff_exists.mp (posOf_isSome.mpr hmem) with ⟨i, hi⟩
    rw [add_of_mem hs hi]
    exact hs
  · rw [add_of_not_mem hs hmem]
    obtain ⟨hitems, hkeys, hlen, hget⟩ := hs
    have hxk : x ∉ keys s.map := fun hk => hmem ((Inv.mem_keys ⟨hitems, hkeys, hlen, hget⟩ x).mp hk)
    refine ⟨?_, ?_, ?_, ?_⟩
    · rw [List.nodup_append]
      refine ⟨hitems, List.nodup_singleton x, ?_⟩
      intro a ha hax
      rw [List.mem_singleton] at hax
      subst hax
      exact hmem ha
    · simp only [keys, List.map_append, List.map_cons, List.map_nil]
      rw [List.nodup_append]
      refine ⟨hkeys, List.nodup_singleton x, ?_⟩
      intro a ha hax
      rw [List.mem_singleton] at hax
      subst hax
      exact hxk ha
    · simp [hlen]
    · intro y hy
      rw [List.mem_append] at hy
      rcases hy with hy | hy
      · rw [dictGet_append_of_ne (fun e => hmem (by rw [← e]; exact hy)),
          posOf_append_left hy]
        exact hget y hy
      · simp only [List.mem_singleton] at hy
        subst hy
        rw [dictGet_append_self hxk, posOf_append_right hmem]
        simp [posOf]

theorem add_items_cases {s : OrderedSet α} (hs : Inv s) (x : α) :
    ((add s x).1).items = s.items ++ (if x ∈ s.items then [] else [x]) := by
  by_cases hmem : x ∈ s.items
  · rcases Option.isSome_iff_exists.mp (posOf_isSome.mpr hmem) with ⟨i, hi⟩
    rw [add_of_mem hs hi]
    simp [hmem]
  · rw [add_of_not_mem hs hmem]
    simp [hmem]

/-! ### Lemmas about `dedupFrom` -/

theorem dedupFrom_congr {seen₁ seen₂ : List α}
    (h : ∀ y, y ∈ seen₁ ↔ y ∈ seen₂) (l : List α) :
    dedupFrom seen₁ l = dedupFrom seen₂ l := by
  induction l generalizing seen₁ seen₂ with
  | nil => rfl
  | cons x xs ih =>
    by_cases hx : x ∈ seen₁
    · simp [dedupFrom, hx, (h x).mp hx, ih h]
    · have hx₂ : x ∉ seen₂ := fun hc => hx ((h x).mpr hc)
      simp only [dedupFrom, hx, hx₂, if_false]
      congr 1
      exact ih (fun y => by simp [List.mem_append, h y])

theorem dedupFrom_eq_self {seen l : List α} (hnd : l.Nodup)
    (h : ∀ y ∈ seen, y ∉ l) : dedupFrom seen l = l := by
  induction l generalizing seen with
  | nil => rfl
  | cons x xs ih =>
    rcases List.nodup_cons.mp hnd with ⟨hx, hnd'⟩
    have hxs : x ∉ seen := fun hc => h x hc (List.mem_cons_self _ _)
    simp only [dedupFrom, hxs, if_false]
    rw [ih hnd']
    intro y hy
    rw [List.mem_append] at hy
    rcases hy with hy | hy
    · exact fun hc => h y hy (List.mem_cons_of_mem _ hc)
    · simp only [List.mem_singleton] at hy
      subst hy
      exact hx

theorem mem_dedupFrom {seen l : List α} {y : α} :
    y ∈ dedupFrom seen l ↔ y ∈ l ∧ y ∉ seen := by
  induction l generalizing seen with
  | nil => simp [dedupFrom]
  | cons x xs ih =>
    by_cases hx : x ∈ seen
    · by_cases hxy : y = x
      · subst hxy
        simp [dedupFrom, hx, ih]
      · simp [dedupFrom, hx, ih, hxy]
    · by_cases hxy : y = x
      · subst hxy
        simp [dedupFrom, hx]
      · simp only [dedupFrom, hx, if_false, List.mem_cons, hxy, false_or]
        rw [ih]
        simp [List.mem_append, hxy]

theorem dedupFrom_nodup (seen l : List α) : (dedupFrom seen l).Nodup := by
  induction l generalizing seen with
  | nil => exact List.nodup_nil
  | cons x xs ih =>
    by_cases hx : x ∈ seen
    · simpa [dedupFrom, hx] using ih seen
    · simp only [dedupFrom, hx, if_false]
      rw [List.nodup_cons]
      refine ⟨?_, ih _⟩
      rw [mem_dedupFrom]
      rintro ⟨-, hc⟩
      exact hc (by simp)

theorem dedupFrom_append (seen a b : List α) :
    dedupFrom seen (a ++ b) = dedupFrom seen a ++ dedupFrom (seen ++ a) b := by
  induction a generalizing seen with
  | nil => simp [dedupFrom]
  | cons x xs ih =>
    by_cases hx : x ∈ seen
    · simp only [List.cons_append, dedupFrom, hx, if_true, List.append_eq]
      rw [ih]
      congr 1
      refine dedupFrom_congr (fun y => ?_) b
      simp only [List.mem_append, List.mem_cons]
      constructor
      · rintro (h | h)
        · exact Or.inl h
        · exact Or.inr (Or.inr h)
      · rintro (h | h | h)
        · exact Or.inl h
        · exact Or.inl (h ▸ hx)
        · exact Or.inr h
    · simp only [List.cons_append, dedupFrom, hx, if_false, List.append_eq]
      rw [ih]
      congr 2
      refine dedupFrom_congr (fun y => ?_) b
      simp only [List.mem_append, List.mem_cons, List.mem_singleton]
      tauto

theorem dedupFrom_filter {seen l : List α} {p : α → Bool}
    (hseen : ∀ y ∈ seen, p y = true → y ∉ l) (hnd : (l.filter p).Nodup) :
    (dedupFrom seen l).filter p = l.filter p := by
  induction l generalizing seen with
  | nil => rfl
  | cons x xs ih =>
    by_cases hx : x ∈ seen
    · have hpx : p x = false := by
        rcases Bool.eq_false_or_eq_true (p x) with h | h
        · exact absurd (List.mem_cons_self x xs) (hseen x hx h)
        · exact h
      simp only [dedupFrom, hx, if_true]
      rw [List.filter_cons_of_neg (by simp [hpx])]
      refine ih (fun y hy hpy hmem => hseen y hy hpy (List.mem_cons_of_mem _ hmem))
        (by rwa [List.filter_cons_of_neg (by simp [hpx])] at hnd)
    · simp only [dedupFrom, hx, if_false]
      rcases hb : p x with _ | _
      · rw [List.filter_cons_of_neg (by simp [hb]), List.filter_cons_of_neg (by simp [hb])]
        rw [List.filter_cons_of_neg (by simp [hb])] at hnd
        refine ih (fun y hy hpy => ?_) hnd
        rcases List.mem_append.mp hy with hy | hy
        · exact fun hmem => hseen y hy hpy (List.mem_cons_of_mem _ hmem)
        · simp only [List.mem_singleton] at hy
          subst hy
          exact absurd hpy (by simp [hb])
      · rw [List.filter_cons_of_pos (by simp [hb]), List.filter_cons_of_pos (by simp [hb])]
        rw [List.filter_cons_of_pos (by simp [hb])] at hnd
        rcases List.nodup_cons.mp hnd with ⟨hxmem, hnd'⟩
        have hxxs : x ∉ xs := fun hc => hxmem (List.mem_filter.mpr ⟨hc, hb⟩)
        congr 1
        refine ih (fun y hy hpy => ?_) hnd'
        rcases List.mem_append.mp hy with hy | hy
        · exact fun hmem => hseen y hy hpy (List.mem_cons_of_mem _ hmem)
        · simp only [List.mem_singleton] at hy
          subst hy
          exact hxxs

/-! ### Lemmas about `addAll`, `fromList` and `updateGo` -/

theorem addAll_items_inv (l : List α) (s : OrderedSet α) (i : Nat) (hs : Inv s) :
    (addAll s i l).1.items = s.items ++ dedupFrom s.items l ∧ Inv (addAll s i l).1 := by
  induction l generalizing s i with
  | nil => simpa [addAll, dedupFrom] using hs
  | cons x xs ih =>
    by_cases hmem : x ∈ s.items
    · rcases Option.isSome_iff_exists.mp (posOf_isSome.mpr hmem) with ⟨j, hj⟩
      simp only [addAll]
      rw [add_of_mem hs hj]
      obtain ⟨h1, h2⟩ := ih s j hs
      exact ⟨by rw [h1]; simp [dedupFrom, hmem], h2⟩
    · have hs' := Inv_add hs x
      rw [add_of_not_mem hs hmem] at hs'
      simp only [addAll]
      rw [add_of_not_mem hs hmem]
      obtain ⟨h1, h2⟩ := ih _ s.items.length hs'
      refine ⟨?_, h2⟩
      rw [h1]
      simp [dedupFrom, hmem, List.append_assoc]

theorem addAll_append (a b : List α) (s : OrderedSet α) (i : Nat) :
    addAll s i (a ++ b) = addAll (addAll s i a).1 (addAll s i a).2 b := by
  induction a generalizing s i with
  | nil => simp [addAll]
  | cons x xs ih =>
    simp only [List.cons_append, addAll, List.append_eq]
    exact ih _ _

theorem fromList_eq_addAll (l : List α) :
    fromList l = (addAll ({ items := [], map := [] } : OrderedSet α) 0 l).1 := by
  simp [fromList, update, updateGo]

theorem Inv_empty : Inv ({ items := [], map := [] } : OrderedSet α) := by
  refine ⟨List.nodup_nil, List.nodup_nil, rfl, ?_⟩
  intro x hx
  simp at hx

theorem fromList_items (l : List α) : (fromList l).items = dedupFrom [] l := by
  rw [fromList_eq_addAll]
  have h := (addAll_items_inv l _ 0 Inv_empty).1
  simpa using h

theorem Inv_fromList (l : List α) : Inv (fromList l) := by
  rw [fromList_eq_addAll]
  exact (addAll_items_inv l _ 0 Inv_empty).2

theorem fromList_items_of_nodup {l : List α} (hnd : l.Nodup) :
    (fromList l).items = l := by
  rw [fromList_items]
  exact dedupFrom_eq_self hnd (by simp)

theorem updateGo_inv (seqs : List (Option (List α))) (s : OrderedSet α) (i : Nat)
    (hs : Inv s) : Inv (updateGo s i seqs).1 := by
  induction seqs generalizing s i with
  | nil => exact hs
  | cons o rest ih =>
    cases o with
    | none => exact hs
    | some a =>
      simp only [updateGo]
      exact ih _ _ (addAll_items_inv a s i hs).2

theorem updateGo_takeWhile (seqs : List (Option (List α))) (s : OrderedSet α)
    (i : Nat) :
    (updateGo s i seqs).1 = (updateGo s i (seqs.takeWhile (fun o => o.isSome))).1 := by
  induction seqs generalizing s i with
  | nil => rfl
  | cons o rest ih =>
    cases o with
    | none => simp [updateGo, List.takeWhile]
    | some a =>
      simp only [updateGo, List.takeWhile, Option.isSome]
      exact ih _ _

theorem updateGo_error_of_none (seqs : List (Option (List α))) (s : OrderedSet α)
    (i : Nat) (h : none ∈ seqs) :
    (updateGo s i seqs).2 = Except.error "Argument needs to be an iterable" := by
  induction seqs generalizing s i with
  | nil => simp at h
  | cons o rest ih =>
    cases o with
    | none => rfl
    | some a =>
      have h' : none ∈ rest := by
        rcases List.mem_cons.mp h with h | h
        · exact absurd h.symm (by simp)
        · exact h
      simp only [updateGo]
      exact ih _ _ h'

theorem updateGo_of_no_none (seqs : List (Option (List α))) (s : OrderedSet α)
    (i : Nat) (h : none ∉ seqs) :
    updateGo s i seqs
      = ((addAll s i (seqs.filterMap id).flatten).1,
         Except.ok (addAll s i (seqs.filterMap id).flatten).2) := by
  induction seqs generalizing s i with
  | nil => simp [updateGo, addAll]
  | cons o rest ih =>
    cases o with
    | none => exact absurd (List.mem_cons_self _ _) h
    | some a =>
      have h' : none ∉ rest := fun hc => h (List.mem_cons_of_mem _ hc)
      simp only [updateGo, List.filterMap_cons, id, List.flatten_cons]
      rw [ih _ _ h', addAll_append]

/-! ### Lemmas about `List.eraseIdx` and index shifting -/

theorem eraseIdx_getElem? (l : List α) (i j : Nat) :
    (l.eraseIdx i)[j]? = if j < i then l[j]? else l[j + 1]? := by
  induction l generalizing i j with
  | nil => simp [List.eraseIdx]
  | cons x xs ih =>
    cases i with
    | zero => simp [List.eraseIdx]
    | succ i' =>
      cases j with
      | zero => simp [List.eraseIdx, Nat.succ_pos]
      | succ j' =>
        simp only [List.eraseIdx, List.getElem?_cons_succ]
        rw [ih i' j']
        by_cases h : j' < i' <;> simp [h, Nat.succ_lt_succ_iff]

theorem posOf_eraseIdx_of_ne {l : List α} (hnd : l.Nodup) {x : α} {j i : Nat}
    (hj : posOf x l = some j) (hne : j ≠ i) :
    posOf x (l.eraseIdx i) = some (if j < i then j else j - 1) := by
  have hget : l[j]? = some x := posOf_get hj
  have hnd' : (l.eraseIdx i).Nodup := (List.eraseIdx_sublist l i).nodup hnd
  by_cases h : j < i
  · rw [if_pos h]
    refine posOf_of_get hnd' ?_
    rw [eraseIdx_getElem?, if_pos h]
    exact hget
  · have hji : i < j := Nat.lt_of_le_of_ne (Nat.le_of_not_lt h) (Ne.symm hne)
    have hj1 : j - 1 + 1 = j := Nat.succ_pred_eq_of_pos (Nat.lt_of_le_of_lt (Nat.zero_le i) hji)
    rw [if_neg h]
    refine posOf_of_get hnd' ?_
    rw [eraseIdx_getElem?, if_neg (by omega), hj1]
    exact hget

theorem posOf_eraseIdx_self {l : List α} (hnd : l.Nodup) {x : α} {i : Nat}
    (hi : posOf x l = some i) : posOf x (l.eraseIdx i) = none := by
  rw [posOf_eq_none]
  intro hmem
  rcases Option.isSome_iff_exists.mp (posOf_isSome.mpr hmem) with ⟨j, hj⟩
  have hget : (l.eraseIdx i)[j]? = some x := posOf_get hj
  rw [eraseIdx_getElem?] at hget
  by_cases h : j < i
  · rw [if_pos h] at hget
    have h2 := posOf_of_get hnd hget
    rw [hi] at h2
    have := Option.some.inj h2
    omega
  · rw [if_neg h] at hget
    have h2 := posOf_of_get hnd hget
    rw [hi] at h2
    have := Option.some.inj h2
    omega

theorem dictGet_shift_erase (m : List (α × Nat)) (v x : α) (i : Nat)
    (hx : ¬ x = v) :
    dictGet ((dictErase m v).map (fun kv => if i ≤ kv.2 then (kv.1, kv.2 - 1) else kv)) x
      = (dictGet m x).map (fun j => if i ≤ j then j - 1 else j) := by
  induction m with
  | nil => rfl
  | cons kv m ih =>
    obtain ⟨k, w⟩ := kv
    by_cases hkv : k = v
    · rw [dictErase, List.filter_cons_of_neg (by simp [hkv])]
      rw [dictGet_cons_of_ne (by rw [hkv]; exact fun e => hx e.symm)]
      exact ih
    · rw [dictErase, List.filter_cons_of_pos (by simp [hkv])]
      have hcons : (if i ≤ w then ((k, w - 1) : α × Nat) else (k, w))
          = (k, if i ≤ w then w - 1 else w) := by
        split <;> rfl
      simp only [List.map_cons, hcons]
      by_cases hk : k = x
      · rw [dictGet_cons_of_eq hk, dictGet_cons_of_eq hk]
        rfl
      · rw [dictGet_cons_of_ne hk, dictGet_cons_of_ne hk]
        exact ih

theorem dictGet_shift_erase_self (m : List (α × Nat)) (v : α) (i : Nat) :
    dictGet ((dictErase m v).map (fun kv => if i ≤ kv.2 then (kv.1, kv.2 - 1) else kv)) v
      = none := by
  induction m with
  | nil => rfl
  | cons kv m ih =>
    obtain ⟨k, w⟩ := kv
    by_cases hkv : k = v
    · rw [dictErase, List.filter_cons_of_neg (by simp [hkv])]
      exact ih
    · rw [dictErase, List.filter_cons_of_pos (by simp [hkv])]
      have hcons : (if i ≤ w then ((k, w - 1) : α × Nat) else (k, w))
          = (k, if i ≤ w then w - 1 else w) := by
        split <;> rfl
      simp only [List.map_cons, hcons]
      rw [dictGet_cons_of_ne hkv]
      exact ih

/-! ### Helpers about `copy` and membership tests -/

theorem Inv_copy (s : OrderedSet α) : Inv (copy s) :=
  Inv_fromList s.items

theorem copy_items {s : OrderedSet α} (hs : Inv s) : (copy s).items = s.items :=
  fromList_items_of_nodup hs.1

theorem any_eq_decide_mem (l : List α) (x : α) :
    l.any (fun y => decide (y = x)) = decide (x ∈ l) := by
  induction l with
  | nil => rfl
  | cons y ys ih =>
    rw [List.any_cons, ih]
    by_cases h : y = x
    · simp [h]
    · simp [h, Ne.symm h]

theorem difference_one_items {t : OrderedSet α} (hnd : t.items.Nodup) (o : List α) :
    (difference t [o]).items
      = t.items.filter (fun x => !(o.any (fun y => decide (y = x)))) := by
  unfold difference
  rw [if_neg (by simp)]
  rw [fromList_items_of_nodup (hnd.filter _)]
  refine List.filter_congr ?_
  intro x _
  simp [List.any_cons]

theorem intersection_one_items {t : OrderedSet α} (hnd : t.items.Nodup) (o : List α) :
    (intersection t [o]).items
      = t.items.filter (fun x => o.any (fun y => decide (y = x))) := by
  unfold intersection
  rw [if_neg (by simp)]
  rw [fromList_items_of_nodup (hnd.filter _)]
  refine List.filter_congr ?_
  intro x _
  simp [List.all_cons]

theorem union_one_items {t : OrderedSet α} (hnd : t.items.Nodup) {l2 : List α}
    (hnd2 : l2.Nodup) (hdisj : ∀ y ∈ t.items, y ∉ l2) :
    (union t [l2]).items = t.items ++ l2 := by
  unfold union
  rw [fromList_items]
  simp only [List.flatten_cons, List.flatten_nil, List.append_nil]
  rw [dedupFrom_append, dedupFrom_eq_self hnd (by simp)]
  simp only [List.nil_append]
  rw [dedupFrom_eq_self hnd2 hdisj]

theorem symmetric_difference_items (s : OrderedSet α) (other : List α)
    (hs : Inv s) :
    (symmetric_difference s other).items
      = s.items.filter (fun x => !(other.any (fun y => decide (y = x))))
        ++ (dedupFrom [] other).filter
            (fun x => !(s.items.any (fun y => decide (y = x)))) := by
  have h1 : (difference (fromList s.items) [other]).items
      = s.items.filter (fun x => !(other.any (fun y => decide (y = x)))) := by
    rw [difference_one_items (Inv_fromList s.items).1 other,
      fromList_items_of_nodup hs.1]
  have h2 : (difference (fromList other) [s.items]).items
      = (dedupFrom [] other).filter
          (fun x => !(s.items.any (fun y => decide (y = x)))) := by
    rw [difference_one_items (Inv_fromList other).1 s.items, fromList_items]
  have hnd1 : (difference (fromList s.items) [other]).items.Nodup := by
    rw [h1]
    exact hs.1.filter _
  have hnd2 : (difference (fromList other) [s.items]).items.Nodup := by
    rw [h2]
    exact (dedupFrom_nodup [] other).filter _
  have hdisj : ∀ y ∈ (difference (fromList s.items) [other]).items,
      y ∉ (difference (fromList other) [s.items]).items := by
    intro y hy hc
    rw [h1] at hy
    rw [h2] at hc
    have hy' := (List.mem_filter.mp hy).1
    have hc' := (List.mem_filter.mp hc).2
    rw [any_eq_decide_mem] at hc'
    simp at hc'
    exact hc' hy'
  unfold symmetric_difference
  rw [union_one_items hnd1 hnd2 hdisj, h1, h2]

/-! ### The claims -/

/-- C6: `add(value)` returns the existing index of a present value and leaves
the state unchanged; for an absent value it appends it at the end, records it
in the position index at index = old size, and returns that index; calling
`add` twice returns the same index both times and grows the size by at most
one. -/
theorem C6_add_spec (s : OrderedSet α) (v : α) (hs : Inv s) :
    (∀ i, posOf v s.items = some i → add s v = (s, i)) ∧
    (v ∉ s.items →
      (add s v).1.items = s.items ++ [v] ∧
      (add s v).2 = s.items.length ∧
      dictGet (add s v).1.map v = some s.items.length) ∧
    (add ((add s v).1) v).2 = (add s v).2 ∧
    (add ((add s v).1) v).1.items.length ≤ s.items.length + 1 := by
  refine ⟨fun i hi => add_of_mem hs hi, ?_, ?_⟩
  · intro hmem
    rw [add_of_not_mem hs hmem]
    have hkeys : v ∉ keys s.map := fun hk => hmem ((hs.mem_keys v).mp hk)
    exact ⟨rfl, rfl, dictGet_append_self hkeys⟩
  · by_cases hmem : v ∈ s.items
    · rcases Option.isSome_iff_exists.mp (posOf_isSome.mpr hmem) with ⟨i, hi⟩
      rw [add_of_mem hs hi, add_of_mem hs hi]
      exact ⟨rfl, by simp⟩
    · have hs' := Inv_add hs v
      rw [add_of_not_mem hs hmem] at hs' ⊢
      have hpos : posOf v (s.items ++ [v]) = some s.items.length := by
        rw [posOf_append_right hmem]
        simp [posOf]
      rw [add_of_mem hs' hpos]
      simp

/-- C6 witness: adding the already-present value 7 to `OrderedSet([5, 7])`
returns its existing index 1 and changes nothing; adding the fresh value 9
returns the old size 2. -/
theorem C6_witness :
    add (fromList [5, 7] : OrderedSet Nat) 7 = (fromList [5, 7], 1) ∧
    (add (fromList [5, 7] : OrderedSet Nat) 9).2 = 2 :=
  ⟨(C6_add_spec (fromList [5, 7]) 7 (by decide)).1 1 (by decide),
   ((C6_add_spec (fromList [5, 7]) 9 (by decide)).2.1 (by decide)).2.1⟩

/-- C10: `update` called with zero sources, or with sources that are all
empty, returns index 0 (the initial value of `item_index`) and leaves the
set unchanged, regardless of the set's current contents. -/
theorem C10_update_no_elements (s : OrderedSet α) (seqs : List (Option (List α)))
    (h : ∀ e ∈ seqs, e = some ([] : List α)) : update s seqs = (s, Except.ok 0) := by
  suffices haux : ∀ (seqs : List (Option (List α))) (s : OrderedSet α) (i : Nat),
      (∀ e ∈ seqs, e = some ([] : List α)) → updateGo s i seqs = (s, Except.ok i) from
    haux seqs s 0 h
  intro seqs
  induction seqs with
  | nil => intro s i _; rfl
  | cons o rest ih =>
    intro s i h
    have ho := h o (List.mem_cons_self _ _)
    subst ho
    simp only [updateGo, addAll]
    exact ih s i (fun e he => h e (List.mem_cons_of_mem _ he))

/-- C10 witness: on a non-empty set of size 2, `update` with two empty
sources returns 0, not the index of any previously inserted element. -/
theorem C10_witness :
    update (fromList [3, 4] : OrderedSet Nat) [some [], some []]
      = (fromList [3, 4], Except.ok 0) :=
  C10_update_no_elements (fromList [3, 4]) [some [], some []] (by decide)

/-- C4: `update` raises the input-shape `ValueError` exactly when one of the
given sources is non-iterable; when every source is iterable it succeeds and
inserts every element of every source, left to right, via `add`. -/
theorem C4_update_spec (s : OrderedSet α) (seqs : List (Option (List α))) :
    ((update s seqs).2 = Except.error "Argument needs to be an iterable" ↔
      none ∈ seqs) ∧
    (none ∉ seqs →
      update s seqs
        = ((addAll s 0 (seqs.filterMap id).flatten).1,
           Except.ok (addAll s 0 (seqs.filterMap id).flatten).2)) := by
  constructor
  · constructor
    · intro h
      by_contra hn
      rw [update, updateGo_of_no_none _ _ _ hn] at h
      simp at h
    · exact updateGo_error_of_none seqs s 0
  · exact updateGo_of_no_none seqs s 0

/-- C4 witness: a concrete successful `update` over two iterable sources
adds all their elements in order through `add`. -/
theorem C4_witness :
    update (fromList [1] : OrderedSet Nat) [some [2], some [1, 3]]
      = (fromList [1, 2, 3], Except.ok 2) := by
  have h := (C4_update_spec (fromList [1] : OrderedSet Nat)
    [some [2], some [1, 3]]).2 (by decide)
  exact h.trans (by rfl)

/-- C2 counterexample: `update` applied to the empty set with a good source
followed by a non-iterable source raises, yet the structure is not left in
its prior state — the element of the first source has been added. -/
theorem C2_counterexample :
    (update ({ items := [], map := [] } : OrderedSet Nat) [some [1], none]).2
        = Except.error "Argument needs to be an iterable" ∧
    (update ({ items := [], map := [] } : OrderedSet Nat) [some [1], none]).1
        ≠ { items := [], map := [] } := by
  exact ⟨rfl, by decide⟩

/-- C2 (amended): a failed `update` leaves the structure in an
invariant-respecting state, namely the prior state updated with exactly the
sources preceding the first non-iterable one — not necessarily the prior
state itself.  (The bounds-checked positional operations and `remove` raise
before mutating, which the embedding reflects by returning errors carrying
no successor state.) -/
theorem C2_update_error_state (s : OrderedSet α) (seqs : List (Option (List α)))
    (hs : Inv s) :
    Inv (update s seqs).1 ∧
    (update s seqs).1 = (update s (seqs.takeWhile (fun o => o.isSome))).1 :=
  ⟨updateGo_inv seqs s 0 hs, updateGo_takeWhile seqs s 0⟩

/-- C2 witness: the amended statement at a concrete erroring `update`. -/
theorem C2_witness :
    Inv (update (fromList [5] : OrderedSet Nat) [some [7], none]).1 ∧
    (update (fromList [5] : OrderedSet Nat) [some [7], none]).1
      = (update (fromList [5])
          ([some [7], none].takeWhile (fun o => o.isSome))).1 :=
  C2_update_error_state (fromList [5]) [some [7], none] (by decide)

/-- C9: pickling round-trip — reconstructing from the exported state yields a
set with the same sequence and an extensionally equal position index; the
exported state is always truthy (so reconstruction runs), and the empty set
exports the distinguished non-empty sentinel `(None,)`. -/
theorem C9_pickle_roundtrip (s : OrderedSet α) (hs : Inv s) :
    (setstate (getstate s)).items = s.items ∧
    Inv (setstate (getstate s)) ∧
    (∀ x, dictGet (setstate (getstate s)).map x = dictGet s.map x) ∧
    stateTruthy (getstate s) = true ∧
    (s.items = [] → getstate s = PickleState.sentinel) := by
  by_cases hlen : s.items.length = 0
  · have hnil : s.items = [] := List.length_eq_zero.mp hlen
    have hmap : s.map = [] := by
      have := hs.2.2.1
      rw [hlen] at this
      exact List.length_eq_zero.mp this
    rw [getstate, if_pos hlen]
    refine ⟨?_, ?_, ?_, rfl, fun _ => rfl⟩
    · rw [setstate, hnil]
      rfl
    · exact Inv_fromList []
    · intro x
      rw [setstate, hmap]
      rfl
  · rw [getstate, if_neg hlen]
    have hitems : (fromList s.items).items = s.items :=
      fromList_items_of_nodup hs.1
    refine ⟨hitems, Inv_fromList s.items, ?_, ?_, fun h => absurd (h ▸ rfl) hlen⟩
    · intro x
      rw [setstate, (Inv_fromList s.items).dictGet_eq, hitems, hs.dictGet_eq]
    · simp [stateTruthy, List.isEmpty_iff, hlen]
      intro h
      exact hlen (by rw [h]; rfl)

/-- C9 witness: the round-trip at a concrete non-empty set. -/
theorem C9_witness :
    (setstate (getstate (fromList [1, 2] : OrderedSet Nat))).items
        = (fromList [1, 2] : OrderedSet Nat).items ∧
    stateTruthy (getstate (fromList [1, 2] : OrderedSet Nat)) = true :=
  ⟨(C9_pickle_roundtrip (fromList [1, 2]) (by decide)).1,
   (C9_pickle_roundtrip (fromList [1, 2]) (by decide)).2.2.2.1⟩

/-- C1: evaluation of the code at the failing input.  Starting from
`OrderedSet([0])`, the public call `symmetric_difference_update([1, 1])`
produces a state whose sequence `[0, 1, 1]` contains a duplicate while the
position index has only two entries (`{0: 0, 1: 2}`), so the core invariant
is violated in a state reachable by the public operations. -/
theorem C1_invariant_violated :
    (symmetric_difference_update (fromList [0] : OrderedSet Nat) [1, 1]).items
        = [0, 1, 1] ∧
    (symmetric_difference_update (fromList [0] : OrderedSet Nat) [1, 1]).map
        = [(0, 0), (1, 2)] ∧
    ¬ Inv (symmetric_difference_update (fromList [0] : OrderedSet Nat) [1, 1]) := by
  exact ⟨rfl, rfl, by decide⟩

/-- C3 counterexample: with `A = OrderedSet([0])` and the duplicate-bearing
source `B = [1, 1]`, `A.copy().symmetric_difference_update(B)` yields the
sequence `[0, 1, 1]` while `A.symmetric_difference(B)` yields `[0, 1]`, so
the two results are not equal. -/
theorem C3_counterexample :
    (symmetric_difference_update (copy (fromList [0] : OrderedSet Nat)) [1, 1]).items
      ≠ (symmetric_difference (fromList [0] : OrderedSet Nat) [1, 1]).items := by
  decide

/-- C7: `symmetric_difference(other)` contains exactly the elements lying in
exactly one of the two sets, with self's differing elements (in self's order)
before other's differing elements (in other's first-occurrence order), and it
is computed as `(self - other) ∪ (other - self)`. -/
theorem C7_symmetric_difference (s : OrderedSet α) (other : List α) (hs : Inv s) :
    (symmetric_difference s other).items
      = s.items.filter (fun x => !(other.any (fun y => decide (y = x))))
        ++ (dedupFrom [] other).filter
            (fun x => !(s.items.any (fun y => decide (y = x)))) ∧
    (∀ x, x ∈ (symmetric_difference s other).items ↔
      ((x ∈ s.items ∧ x ∉ other) ∨ (x ∈ other ∧ x ∉ s.items))) ∧
    symmetric_difference s other
      = union (difference (fromList s.items) [other])
          [(difference (fromList other) [s.items]).items] := by
  refine ⟨symmetric_difference_items s other hs, ?_, rfl⟩
  intro x
  rw [symmetric_difference_items s other hs, List.mem_append,
    List.mem_filter, List.mem_filter, mem_dedupFrom]
  simp [any_eq_decide_mem]

/-- C7 witness: the concrete example from the specification,
`A = ["a","b","c"]`, `B = ["b","d"]`, yields `["a","c","d"]`. -/
theorem C7_witness :
    (symmetric_difference (fromList ["a", "b", "c"]) ["b", "d"]).items
      = ["a", "c", "d"] := by
  have h := (C7_symmetric_difference (fromList ["a", "b", "c"]) ["b", "d"]
    (by decide)).1
  exact h.trans (by rfl)

/-- C3 (amended): for any ordered set `A` and any source collection `B`
(repetitions allowed), the in-place variants agree with the pure methods for
intersection, union and difference, and `A & B` is `A.intersection(B)`
definitionally; for symmetric difference the agreement additionally requires
that `B`'s occurrences of elements absent from `A` contain no duplicates —
with a duplicated new element the in-place variant keeps both occurrences
while the pure method deduplicates (see the counterexample). -/
theorem C3_operator_method_consistency (A : OrderedSet α) (B : List α)
    (hA : Inv A) :
    opAnd A B = intersection A [B] ∧
    (intersection_update (copy A) B).items = (intersection A [B]).items ∧
    ((update (copy A) [some B]).1).items = (union A [B]).items ∧
    (difference_update (copy A) [B]).items = (difference A [B]).items ∧
    ((B.filter (fun x => !(A.items.any (fun y => decide (y = x))))).Nodup →
      (symmetric_difference_update (copy A) B).items
        = (symmetric_difference A B).items) := by
  refine ⟨rfl, ?_, ?_, ?_, ?_⟩
  · rw [intersection_one_items hA.1 B]
    show ((copy A).items.filter _) = _
    rw [copy_items hA]
  · have hu : (update (copy A) [some B]).1 = (addAll (copy A) 0 B).1 := by
      simp [update, updateGo]
    rw [hu, (addAll_items_inv B (copy A) 0 (Inv_copy A)).1, copy_items hA]
    unfold union
    rw [fromList_items]
    simp only [List.flatten_cons, List.flatten_nil, List.append_nil]
    rw [dedupFrom_append, dedupFrom_eq_self hA.1 (by simp)]
    simp only [List.nil_append]
  · rw [difference_one_items hA.1 B]
    show ((copy A).items.filter _) = _
    rw [copy_items hA]
    refine List.filter_congr ?_
    intro x _
    simp [List.any_cons]
  · intro hBnd
    rw [symmetric_difference_items A B hA]
    show ((copy A).items.filter _ ++ B.filter (fun x => !(dictContains (copy A).map x))) = _
    rw [copy_items hA]
    congr 1
    rw [dedupFrom_filter (by simp) hBnd]
    refine List.filter_congr ?_
    intro x _
    rw [(Inv_copy A).contains_eq, copy_items hA, any_eq_decide_mem]

/-- C3 witness: the amended statement at concrete `A = OrderedSet([5, 3])`,
`B = [3, 4, 4]` — the symmetric-difference part is inapplicable there since
`B` repeats the new element 4, and the other equivalences hold. -/
theorem C3_witness :
    opAnd (fromList [5, 3] : OrderedSet Nat) [3, 4, 4]
        = intersection (fromList [5, 3]) [[3, 4, 4]] ∧
    (intersection_update (copy (fromList [5, 3] : OrderedSet Nat)) [3, 4, 4]).items
        = (intersection (fromList [5, 3]) [[3, 4, 4]]).items ∧
    ((update (copy (fromList [5, 3] : OrderedSet Nat)) [some [3, 4, 4]]).1).items
        = (union (fromList [5, 3]) [[3, 4, 4]]).items ∧
    (difference_update (copy (fromList [5, 3] : OrderedSet Nat)) [[3, 4, 4]]).items
        = (difference (fromList [5, 3]) [[3, 4, 4]]).items := by
  have h := C3_operator_method_consistency (fromList [5, 3] : OrderedSet Nat)
    [3, 4, 4] (by decide)
  exact ⟨h.1, h.2.1, h.2.2.1, h.2.2.2.1⟩

/-- C5: `set_at(index, value)` rejects indices outside `[-size, size)` with a
range error; within bounds, it is a no-op when `value` already sits at the
target position, removes a `value` present elsewhere from its old position
and writes it at the left-shift-adjusted target, and otherwise overwrites the
slot; the position index is fully rebuilt (`update_items`). -/
theorem C5_setitem (s : OrderedSet α) (index : Int) (v : α) (hs : Inv s) :
    ((index < -(s.items.length : Int) ∨ (s.items.length : Int) ≤ index) →
      setitem s index v = Except.error "list index out of range") ∧
    (-(s.items.length : Int) ≤ index → index < (s.items.length : Int) →
      (posOf v s.items = some (normIdx s.items.length index) →
        setitem s index v = Except.ok s) ∧
      (∀ p, posOf v s.items = some p → p ≠ normIdx s.items.length index →
        setitem s index v = Except.ok (update_items s
          ((s.items.eraseIdx p).set
            (if p < normIdx s.items.length index
             then normIdx s.items.length index - 1
             else normIdx s.items.length index) v))) ∧
      (posOf v s.items = none →
        setitem s index v = Except.ok
          (update_items s (s.items.set (normIdx s.items.length index) v)))) := by
  constructor
  · intro h
    rw [setitem, if_pos (by omega)]
  · intro h1 h2
    have hin : ¬¬(-(s.items.length : Int) ≤ index ∧ index < (s.items.length : Int)) :=
      not_not.mpr ⟨h1, h2⟩
    refine ⟨?_, ?_, ?_⟩
    · intro hp
      have hmem : v ∈ s.items := posOf_isSome.mp (by rw [hp]; rfl)
      have hc : dictContains s.map v = true := by
        rw [hs.contains_eq]
        exact decide_eq_true hmem
      have hgetD : (dictGet s.map v).getD 0 = normIdx s.items.length index := by
        rw [hs.dictGet_eq, hp]
        rfl
      simp only [setitem, if_neg hin, hc, if_true, hgetD, if_pos rfl]
    · intro p hp hpne
      have hmem : v ∈ s.items := posOf_isSome.mp (by rw [hp]; rfl)
      have hc : dictContains s.map v = true := by
        rw [hs.contains_eq]
        exact decide_eq_true hmem
      have hgetD : (dictGet s.map v).getD 0 = p := by
        rw [hs.dictGet_eq, hp]
        rfl
      simp only [setitem, if_neg hin, hc, if_true, hgetD, if_neg hpne]
      rfl
    · intro hp
      have hmem : v ∉ s.items := posOf_eq_none.mp hp
      have hc : dictContains s.map v = false := by
        rw [hs.contains_eq]
        exact decide_eq_false hmem
      simp only [setitem, if_neg hin, hc, Bool.false_eq_true, if_false]
      rfl

/-- C5 witness: the specification's concrete example — on `["a","b","c"]`,
`set_at(0, "c")` moves `"c"` to the front and yields the sequence
`["c","b"]` — together with a concrete out-of-range rejection. -/
theorem C5_witness :
    setitem (fromList ["a", "b", "c"]) 0 "c"
        = Except.ok (update_items (fromList ["a", "b", "c"]) ["c", "b"]) ∧
    setitem (fromList ["a", "b", "c"]) 3 "z"
        = Except.error "list index out of range" := by
  constructor
  · have h := ((C5_setitem (fromList ["a", "b", "c"]) 0 "c" (by decide)).2
      (by decide) (by decide)).2.1 2 (by decide) (by decide)
    exact h.trans (by rfl)
  · exact (C5_setitem (fromList ["a", "b", "c"]) 3 "z" (by decide)).1
      (by decide)

/-- C8: `discard(value)` never raises — it is a no-op on an absent value, and
on a present value its incremental strategy (delete the entry, decrement the
stored index of every later element) produces exactly the state that
`__delitem__` at the value's position produces by full rebuild: the same
sequence and an extensionally equal position index. -/
theorem C8_discard (s : OrderedSet α) (v : α) (hs : Inv s) :
    (v ∉ s.items → discard s v = s) ∧
    (∀ i, posOf v s.items = some i →
      delitem s (i : Int) = Except.ok (update_items s (s.items.eraseIdx i)) ∧
      (discard s v).items = (update_items s (s.items.eraseIdx i)).items ∧
      (∀ x, dictGet (discard s v).map x
          = dictGet (update_items s (s.items.eraseIdx i)).map x)) := by
  constructor
  · intro hmem
    have hc : dictContains s.map v = false := by
      rw [hs.contains_eq]
      exact decide_eq_false hmem
    simp [discard, hc]
  · intro i hi
    have hmem : v ∈ s.items := posOf_isSome.mp (by rw [hi]; rfl)
    have hilt : i < s.items.length := posOf_lt_length hi
    have hc : dictContains s.map v = true := by
      rw [hs.contains_eq]
      exact decide_eq_true hmem
    have hgetD : (dictGet s.map v).getD 0 = i := by
      rw [hs.dictGet_eq, hi]
      rfl
    have hdiscard : discard s v
        = { items := s.items.eraseIdx i,
            map := (dictErase s.map v).map
              (fun kv => if i ≤ kv.2 then (kv.1, kv.2 - 1) else kv) } := by
      simp only [discard, hc, if_true, hgetD]
    have hnd' : (s.items.eraseIdx i).Nodup := (List.eraseIdx_sublist _ _).nodup hs.1
    refine ⟨?_, ?_, ?_⟩
    · have hneg : ¬¬(-(s.items.length : Int) ≤ (i : Int)
          ∧ (i : Int) < (s.items.length : Int)) := by
        push_neg
        constructor
        · omega
        · omega
      have hnorm : normIdx s.items.length (i : Int) = i := by
        rw [normIdx, if_neg (by omega)]
        exact Int.toNat_natCast i
      simp only [delitem, if_neg hneg, hnorm]
      rfl
    · rw [hdiscard]
      rfl
    · intro x
      rw [hdiscard]
      show dictGet ((dictErase s.map v).map
          (fun kv => if i ≤ kv.2 then (kv.1, kv.2 - 1) else kv)) x
        = dictGet (rebuild (s.items.eraseIdx i)) x
      rw [dictGet_rebuild hnd' x]
      by_cases hxv : x = v
      · subst hxv
        rw [dictGet_shift_erase_self, posOf_eraseIdx_self hs.1 hi]
      · rw [dictGet_shift_erase s.map v x i hxv, hs.dictGet_eq]
        cases hx : posOf x s.items with
        | none =>
          have hxmem : x ∉ s.items := posOf_eq_none.mp hx
          have : x ∉ s.items.eraseIdx i :=
            fun hc' => hxmem ((List.eraseIdx_sublist _ _).mem hc')
          rw [posOf_eq_none.mpr this]
          rfl
        | some j =>
          have hji : j ≠ i := by
            intro e
            subst e
            have h1 := posOf_get hx
            have h2 := posOf_get hi
            rw [h1] at h2
            exact hxv (Option.some.inj h2)
          rw [posOf_eraseIdx_of_ne hs.1 hx hji]
          simp only [Option.map_some']
          by_cases hlt : j < i
          · rw [if_pos hlt, if_neg (by omega)]
          · rw [if_neg hlt, if_pos (by omega)]

/-- C8 witness: discarding the middle element of `[10, 20, 30]` agrees with
`__delitem__` at its position 1, and discarding an absent value is a no-op. -/
theorem C8_witness :
    (discard (fromList [10, 20, 30] : OrderedSet Nat) 20).items
        = (update_items (fromList [10, 20, 30]) ([10, 20, 30].eraseIdx 1)).items ∧
    delitem (fromList [10, 20, 30] : OrderedSet Nat) (1 : Int)
        = Except.ok (update_items (fromList [10, 20, 30]) ([10, 20, 30].eraseIdx 1)) ∧
    discard (fromList [10, 20, 30] : OrderedSet Nat) 99 = fromList [10, 20, 30] := by
  have h := (C8_discard (fromList [10, 20, 30] : OrderedSet Nat) 20 (by decide)).2
    1 (by decide)
  have habs := (C8_discard (fromList [10, 20, 30] : OrderedSet Nat) 99 (by decide)).1
    (by decide)
  exact ⟨h.2.1.trans (by rfl), h.1.trans (by rfl), habs⟩

end OrderedSetSpec
